import Mathlib

/-!
Verification of the RFM customer-segmentation procedure and related
behaviour of the amazon_analytics repository.

The embedding models:
* `rfm_segmentation_analysis` from `rfm_analysis.py` (pandas groupby +
  `pd.qcut` quartile scoring + threshold segmentation), including the
  in-place `df['order_date'] = pd.to_datetime(df['order_date'])` column
  assignment on the caller's dataframe;
* `segment_customer` (the threshold rule);
* the `eda_q3` page of `app_main.py` (seed-42 synthetic RFM data);
* the `DatabaseManager` error-conversion behaviour of `db_analytics.py`.

Numbers: timestamps are whole days (`Int`), monetary amounts are exact
rationals (`ℚ`).  `pd.qcut(..., labels, duplicates := drop)` is modelled
as an `Option`-returning function: pandas raises `ValueError` ("Bin labels
must be one fewer than the number of bin edges") whenever dropping
duplicate quantile edges leaves fewer bins than labels; `none` models that
exception.
-/

namespace AmazonAnalytics

/-- A cell of the `order_date` column.  `raw d` is an unparsed textual
date denoting day `d` (the dtype a CSV load produces); `ts d` is a parsed
datetime cell.  `pd.to_datetime` turns `raw` cells into `ts` cells with
the same denoted day. -/
inductive DateCell where
  | raw (d : Int)
  | ts (d : Int)
deriving DecidableEq, Repr

/-- The day a date cell denotes. -/
def DateCell.val : DateCell → Int
  | .raw d => d
  | .ts d => d

/-- `pd.to_datetime` on one cell: parsing preserves the denoted day. -/
def to_datetime : DateCell → DateCell
  | .raw d => .ts d
  | .ts d => .ts d

/-- One transaction record (the columns `rfm_segmentation_analysis`
reads: customer id, transaction id, order date, final amount). -/
structure Txn where
  customer_id : Nat
  transaction_id : Nat
  order_date : DateCell
  final_amount_inr : ℚ
deriving DecidableEq, Repr

/-- `df['order_date'] = pd.to_datetime(df['order_date'])`: the dataframe
with its `order_date` column converted in place. -/
def convertDates (df : List Txn) : List Txn :=
  df.map (fun t => { t with order_date := to_datetime t.order_date })

/-- Maximum of a list of integers (`Series.max`); the default for the
empty list is never relied on (pandas gives `NaT` there). -/
def listMax : List Int → Int
  | [] => 0
  | x :: xs => xs.foldl max x

/-- All transactions of customer `c` (one pandas `groupby` group). -/
def custTxns (df : List Txn) (c : Nat) : List Txn :=
  df.filter (fun t => t.customer_id = c)

/-- `reference_date = df['order_date'].max() + 1 day`. -/
def referenceDate (df : List Txn) : Int :=
  listMax (df.map (fun t => t.order_date.val)) + 1

/-- `recency = (reference_date - x.max()).days` for customer `c`. -/
def recencyOf (df : List Txn) (c : Nat) : Int :=
  referenceDate df - listMax ((custTxns df c).map (fun t => t.order_date.val))

/-- `frequency = count of the customer's transaction_id entries` =
size of the customer's group. -/
def frequencyOf (df : List Txn) (c : Nat) : Nat :=
  (custTxns df c).length

/-- `monetary = sum of the customer's final_amount_inr`. -/
def monetaryOf (df : List Txn) (c : Nat) : ℚ :=
  ((custTxns df c).map (fun t => t.final_amount_inr)).sum

/-- The distinct customer ids in ascending order — the index of the
`groupby('customer_id')` result (pandas sorts group keys). -/
def rfmCustomers (df : List Txn) : List Nat :=
  List.insertionSort (· ≤ ·) (df.map (fun t => t.customer_id)).dedup

/-- The `recency` column of the aggregate table, as rationals for `qcut`. -/
def recencyCol (df : List Txn) : List ℚ :=
  (rfmCustomers df).map (fun c => (recencyOf df c : ℚ))

/-- The `frequency` column of the aggregate table, as rationals. -/
def frequencyCol (df : List Txn) : List ℚ :=
  (rfmCustomers df).map (fun c => (frequencyOf df c : ℚ))

/-- The `monetary` column of the aggregate table. -/
def monetaryCol (df : List Txn) : List ℚ :=
  (rfmCustomers df).map (fun c => monetaryOf df c)

/-- `Series.rank(method := first)`: ascending rank with ties broken by
row order; entry `i` gets `1 + #{j | x j < x i} + #{j < i | x j = x i}`. -/
def rankFirst (xs : List ℚ) : List ℚ :=
  xs.mapIdx (fun i v =>
    ((xs.countP (fun y => y < v) + (xs.take i).countP (fun y => y = v) + 1 : Nat) : ℚ))

/-- The fractional index of the `k/q` quantile of `n` data points
(numpy convention: `k*(n-1)/q`). -/
def qPos (n k q : Nat) : ℚ :=
  (k : ℚ) * ((n : ℚ) - 1) / (q : ℚ)

/-- The integer part of that fractional index. -/
def qLo (n k q : Nat) : Nat :=
  (⌊qPos n k q⌋).toNat

/-- numpy linear-interpolation quantile: the `k/q` quantile of the sorted
list `s`, interpolating between positions `qLo` and `qLo + 1`. -/
def quantileAt (s : List ℚ) (k q : Nat) : ℚ :=
  if qLo s.length k q + 1 < s.length then
    s.getD (qLo s.length k q) 0
      + (qPos s.length k q - (qLo s.length k q : ℚ))
        * (s.getD (qLo s.length k q + 1) 0 - s.getD (qLo s.length k q) 0)
  else s.getD (qLo s.length k q) 0

/-- The five quartile edges `pd.qcut(xs, q := 4)` computes (quantiles at
0, 1/4, 1/2, 3/4, 1 of the data). -/
def quantileEdges (xs : List ℚ) : List ℚ :=
  [quantileAt (List.insertionSort (· ≤ ·) xs) 0 4,
   quantileAt (List.insertionSort (· ≤ ·) xs) 1 4,
   quantileAt (List.insertionSort (· ≤ ·) xs) 2 4,
   quantileAt (List.insertionSort (· ≤ ·) xs) 3 4,
   quantileAt (List.insertionSort (· ≤ ·) xs) 4 4]

/-- pandas interval binning: `searchsorted(edges, v, side := left)` minus
one, with `v = edges[0]` forced into bin 0 (`include_lowest`). -/
def qcutBin (edges : List ℚ) (v : ℚ) : Nat :=
  if v = edges.getD 0 0 then 0
  else edges.findIdx (fun e => v ≤ e) - 1

/-- `pd.qcut(xs, q := 4, labels, duplicates := drop)`.  Duplicate edges
are dropped; if the label list no longer matches the bin count pandas
raises `ValueError`, modelled as `none`. -/
def qcut (xs : List ℚ) (labels : List Int) : Option (List Int) :=
  let edges := (quantileEdges xs).dedup
  if labels.length = edges.length - 1 then
    some (xs.map (fun v => labels.getD (qcutBin edges v) 0))
  else none

/-- `segment_customer` of `rfm_analysis.py`: fixed thresholds on the
combined score. -/
def segment_customer (score : Int) : String :=
  if score ≥ 10 then "Champions"
  else if score ≥ 8 then "Loyal Customers"
  else if score ≥ 6 then "Potential Loyalists"
  else if score ≥ 4 then "At Risk"
  else "Lost"

/-- One row of the returned RFM profile table. -/
structure RFMRow where
  customer_id : Nat
  recency : Int
  frequency : Nat
  monetary : ℚ
  r_score : Int
  f_score : Int
  m_score : Int
  rfm_score : Int
  segment : String
deriving DecidableEq, Repr

/-- Assemble the profile rows from the three score columns (aligned with
`rfmCustomers df`). -/
def buildRows (df : List Txn) (rs fs ms : List Int) : List RFMRow :=
  (List.range (rfmCustomers df).length).map (fun i =>
    let c := (rfmCustomers df).getD i 0
    let r := rs.getD i 0
    let f := fs.getD i 0
    let m := ms.getD i 0
    { customer_id := c
      recency := recencyOf df c
      frequency := frequencyOf df c
      monetary := monetaryOf df c
      r_score := r
      f_score := f
      m_score := m
      rfm_score := r + f + m
      segment := segment_customer (r + f + m) })

/-- The profile table `rfm_segmentation_analysis` builds: quartile scores
`r_score` (labels 4,3,2,1 on raw recency), `f_score` (labels 1,2,3,4 on
the rank-first of frequency), `m_score` (labels 1,2,3,4 on raw monetary),
combined score and segment.  `none` models the `ValueError` pandas raises
when a `qcut` collapses. -/
def rfmTable (df : List Txn) : Option (List RFMRow) :=
  match qcut (recencyCol df) [4, 3, 2, 1],
        qcut (rankFirst (frequencyCol df)) [1, 2, 3, 4],
        qcut (monetaryCol df) [1, 2, 3, 4] with
  | some rs, some fs, some ms => some (buildRows df rs fs ms)
  | _, _, _ => none

/-- The whole call `rfm_segmentation_analysis(df)`: first the in-place
`order_date` conversion on the caller's dataframe, then the profile
table.  Returns the table together with the dataframe the caller is left
holding. -/
def rfm_segmentation_analysis (df : List Txn) : Option (List RFMRow) × List Txn :=
  let df₂ := convertDates df
  (rfmTable df₂, df₂)

/-! ### Generic list helpers -/

theorem map_range_getD {α : Type} (l : List α) (d : α) (n : Nat) (h : l.length = n) :
    (List.range n).map (fun i => l.getD i d) = l := by
  subst h
  apply List.ext_getElem (by simp)
  intro i h₁ h₂
  rw [List.getElem_map, List.getElem_range, List.getD_eq_getElem l d h₂]

theorem le_foldl_max (l : List Int) (a : Int) : a ≤ l.foldl max a := by
  induction l generalizing a with
  | nil => simp
  | cons x xs ih => exact le_trans (le_max_left a x) (ih (max a x))

theorem mem_le_foldl_max (l : List Int) (a : Int) {x : Int} (hx : x ∈ l) :
    x ≤ l.foldl max a := by
  induction l generalizing a with
  | nil => cases hx
  | cons y ys ih =>
    rcases List.mem_cons.mp hx with rfl | h
    · exact le_trans (le_max_right a x) (le_foldl_max ys (max a x))
    · exact ih (max a y) h

theorem le_listMax {l : List Int} {x : Int} (hx : x ∈ l) : x ≤ listMax l := by
  cases l with
  | nil => cases hx
  | cons y ys =>
    rcases List.mem_cons.mp hx with rfl | h
    · exact le_foldl_max ys x
    · exact mem_le_foldl_max ys y h

theorem foldl_max_mem (l : List Int) (a : Int) : l.foldl max a ∈ a :: l := by
  induction l generalizing a with
  | nil => simp
  | cons x xs ih =>
    rw [List.foldl_cons]
    rcases List.mem_cons.mp (ih (max a x)) with heq | hm
    · rw [heq]
      rcases max_choice a x with hax | hax <;> rw [hax] <;> simp
    · exact List.mem_cons.mpr (Or.inr (List.mem_cons.mpr (Or.inr hm)))

theorem listMax_mem {l : List Int} (h : l ≠ []) : listMax l ∈ l := by
  cases l with
  | nil => exact absurd rfl h
  | cons y ys => exact foldl_max_mem ys y

theorem sorted_getD_zero_le {s : List ℚ} (hs : List.Sorted (· ≤ ·) s) {v : ℚ}
    (hv : v ∈ s) : s.getD 0 0 ≤ v := by
  obtain ⟨i, rfl⟩ := List.mem_iff_get.mp hv
  rw [List.getD_eq_getElem s 0 i.pos]
  have h := hs.rel_get_of_le (a := ⟨0, i.pos⟩) (b := i) (by simp [Fin.le_def])
  simpa [List.get_eq_getElem] using h

theorem le_sorted_getD_last {s : List ℚ} (hs : List.Sorted (· ≤ ·) s) {v : ℚ}
    (hv : v ∈ s) : v ≤ s.getD (s.length - 1) 0 := by
  obtain ⟨i, rfl⟩ := List.mem_iff_get.mp hv
  rw [List.getD_eq_getElem s 0 (Nat.sub_lt i.pos Nat.one_pos)]
  have h := hs.rel_get_of_le (a := i) (b := ⟨s.length - 1, Nat.sub_lt i.pos Nat.one_pos⟩)
    (by have hi := i.isLt; simp [Fin.le_def]; omega)
  simpa [List.get_eq_getElem] using h

/-! ### Customer-population lemmas -/

theorem mem_rfmCustomers {df : List Txn} {c : Nat} :
    c ∈ rfmCustomers df ↔ c ∈ df.map (fun t => t.customer_id) := by
  unfold rfmCustomers
  rw [List.mem_insertionSort, List.mem_dedup]

theorem nodup_rfmCustomers (df : List Txn) : (rfmCustomers df).Nodup :=
  ((List.perm_insertionSort _ _).nodup_iff).mpr (List.nodup_dedup _)

theorem custTxns_ne_nil {df : List Txn} {c : Nat} (hc : c ∈ rfmCustomers df) :
    custTxns df c ≠ [] := by
  rw [mem_rfmCustomers] at hc
  obtain ⟨t, ht, htc⟩ := List.mem_map.mp hc
  intro hnil
  have hmem : t ∈ custTxns df c := by
    unfold custTxns
    exact List.mem_filter.mpr ⟨ht, by simp [htc]⟩
  rw [hnil] at hmem
  cases hmem

theorem frequencyOf_pos {df : List Txn} {c : Nat} (hc : c ∈ rfmCustomers df) :
    1 ≤ frequencyOf df c :=
  List.length_pos.mpr (custTxns_ne_nil hc)

theorem recencyOf_pos {df : List Txn} {c : Nat} (hc : c ∈ rfmCustomers df) :
    1 ≤ recencyOf df c := by
  unfold recencyOf referenceDate
  have hne : (custTxns df c).map (fun t => t.order_date.val) ≠ [] := by
    simp [custTxns_ne_nil hc]
  have h1 : listMax ((custTxns df c).map (fun t => t.order_date.val))
      ≤ listMax (df.map (fun t => t.order_date.val)) := by
    apply le_listMax
    obtain ⟨t, ht, hte⟩ := List.mem_map.mp (listMax_mem hne)
    exact List.mem_map.mpr ⟨t, List.mem_of_mem_filter ht, hte⟩
  omega

/-! ### Quantile and qcut lemmas -/

theorem qPos_zero (n q : Nat) : qPos n 0 q = 0 := by
  unfold qPos
  norm_num

theorem qLo_zero (n q : Nat) : qLo n 0 q = 0 := by
  unfold qLo
  rw [qPos_zero]
  norm_num

theorem quantileAt_zero (s : List ℚ) (q : Nat) : quantileAt s 0 q = s.getD 0 0 := by
  unfold quantileAt
  rw [qLo_zero, qPos_zero]
  norm_num

theorem qPos_last {n : Nat} (hn : 1 ≤ n) : qPos n 4 4 = ((n - 1 : Nat) : ℚ) := by
  unfold qPos
  push_cast [hn]
  ring

theorem qLo_last {n : Nat} (hn : 1 ≤ n) : qLo n 4 4 = n - 1 := by
  unfold qLo
  rw [qPos_last hn]
  rw [Int.floor_natCast]
  exact Int.toNat_natCast _

theorem quantileAt_four {s : List ℚ} (hs : s ≠ []) :
    quantileAt s 4 4 = s.getD (s.length - 1) 0 := by
  have hn : 1 ≤ s.length := List.length_pos.mpr hs
  unfold quantileAt
  rw [qLo_last hn]
  have hlt : ¬ (s.length - 1 + 1 < s.length) := by omega
  simp [hlt]

theorem length_quantileEdges (xs : List ℚ) : (quantileEdges xs).length = 5 := rfl

theorem qcut_some_elim {xs : List ℚ} {labels ys : List Int}
    (h : qcut xs labels = some ys) :
    labels.length = ((quantileEdges xs).dedup).length - 1 ∧
      ys = xs.map (fun v => labels.getD (qcutBin ((quantileEdges xs).dedup) v) 0) := by
  unfold qcut at h
  by_cases hc : labels.length = ((quantileEdges xs).dedup).length - 1
  · simp only [hc, if_true] at h
    exact ⟨hc, (Option.some_injective _ h).symm⟩
  · simp only [hc, if_false] at h
    exact Option.noConfusion h

theorem qcut_edges_of_some {xs : List ℚ} {labels ys : List Int}
    (h : qcut xs labels = some ys) (hlab : labels.length = 4) :
    (quantileEdges xs).dedup = quantileEdges xs := by
  have hc := (qcut_some_elim h).1
  rw [hlab] at hc
  have hsub : (quantileEdges xs).dedup.Sublist (quantileEdges xs) :=
    List.dedup_sublist _
  have hle : (quantileEdges xs).dedup.length ≤ 5 := by
    have := hsub.length_le
    rw [length_quantileEdges] at this
    exact this
  exact hsub.eq_of_length (by rw [length_quantileEdges]; omega)

theorem qcutBin_lt_four {xs : List ℚ} {v : ℚ} (hv : v ∈ xs)
    (hded : (quantileEdges xs).dedup = quantileEdges xs) :
    qcutBin ((quantileEdges xs).dedup) v < 4 := by
  rw [hded]
  have hvs : v ∈ List.insertionSort (· ≤ ·) xs := (List.mem_insertionSort _).mpr hv
  have hsorted : List.Sorted (· ≤ ·) (List.insertionSort (· ≤ ·) xs) :=
    List.sorted_insertionSort _ _
  have hne : List.insertionSort (· ≤ ·) xs ≠ [] := by
    intro h0
    rw [h0] at hvs
    cases hvs
  have hhead : (List.insertionSort (· ≤ ·) xs).getD 0 0 ≤ v :=
    sorted_getD_zero_le hsorted hvs
  have hlast : v ≤ (List.insertionSort (· ≤ ·) xs).getD
      ((List.insertionSort (· ≤ ·) xs).length - 1) 0 :=
    le_sorted_getD_last hsorted hvs
  unfold quantileEdges qcutBin
  by_cases hv0 : v = (List.insertionSort (· ≤ ·) xs).getD 0 0
  · simp [quantileAt_zero, hv0]
  · have hgd : [quantileAt (List.insertionSort (· ≤ ·) xs) 0 4,
        quantileAt (List.insertionSort (· ≤ ·) xs) 1 4,
        quantileAt (List.insertionSort (· ≤ ·) xs) 2 4,
        quantileAt (List.insertionSort (· ≤ ·) xs) 3 4,
        quantileAt (List.insertionSort (· ≤ ·) xs) 4 4].getD 0 0
        = (List.insertionSort (· ≤ ·) xs).getD 0 0 := by
      simp [quantileAt_zero]

    rw [if_neg (by rw [hgd]; exact hv0)]
    have hlt : (List.insertionSort (· ≤ ·) xs).getD 0 0 < v :=
      lt_of_le_of_ne hhead (Ne.symm hv0)
    rw [List.findIdx_cons]
    have hp0 : (decide (v ≤ quantileAt (List.insertionSort (· ≤ ·) xs) 0 4)) = false := by
      rw [quantileAt_zero]
      simpa using not_le.mpr hlt
    rw [hp0]
    simp only [cond_false]
    have hfound : List.findIdx (fun e => v ≤ e)
        [quantileAt (List.insertionSort (· ≤ ·) xs) 1 4,
         quantileAt (List.insertionSort (· ≤ ·) xs) 2 4,
         quantileAt (List.insertionSort (· ≤ ·) xs) 3 4,
         quantileAt (List.insertionSort (· ≤ ·) xs) 4 4] < 4 := by
      apply List.findIdx_lt_length_of_exists
      refine ⟨quantileAt (List.insertionSort (· ≤ ·) xs) 4 4, by simp, ?_⟩
      rw [quantileAt_four hne]
      simpa using hlast
    omega

theorem qcut_out_mem {xs : List ℚ} {labels ys : List Int}
    (h : qcut xs labels = some ys) (hlab : labels.length = 4) :
    ys.length = xs.length ∧ ∀ y ∈ ys, y ∈ labels := by
  obtain ⟨_, hys⟩ := qcut_some_elim h
  have hded := qcut_edges_of_some h hlab
  constructor
  · rw [hys, List.length_map]
  · intro y hy
    rw [hys] at hy
    obtain ⟨v, hvx, rfl⟩ := List.mem_map.mp hy
    have hb : qcutBin ((quantileEdges xs).dedup) v < labels.length := by
      rw [hlab]
      exact qcutBin_lt_four hvx hded
    rw [List.getD_eq_getElem labels 0 hb]
    exact List.getElem_mem hb

/-- Inversion: the quartile labels 4,3,2,1 are pointwise `5 - ·` of the
ascending labels 1,2,3,4 over the same bins. -/
theorem qcut_labels_inverted {xs : List ℚ} {ys : List Int}
    (h : qcut xs [4, 3, 2, 1] = some ys) :
    qcut xs [1, 2, 3, 4] = some (ys.map (fun y => 5 - y)) := by
  have hded := qcut_edges_of_some h rfl
  obtain ⟨hc, hys⟩ := qcut_some_elim h
  unfold qcut
  rw [if_pos (by rw [← hc]; rfl)]
  congr 1
  rw [hys, List.map_map]
  apply List.map_congr_left
  intro v hv
  have hb := qcutBin_lt_four hv hded
  simp only [Function.comp_apply]
  set b := qcutBin ((quantileEdges xs).dedup) v with hbdef
  interval_cases b <;> rfl

theorem rfmTable_some_elim {df : List Txn} {rows : List RFMRow}
    (h : rfmTable df = some rows) :
    ∃ rs fs ms,
      qcut (recencyCol df) [4, 3, 2, 1] = some rs ∧
      qcut (rankFirst (frequencyCol df)) [1, 2, 3, 4] = some fs ∧
      qcut (monetaryCol df) [1, 2, 3, 4] = some ms ∧
      rows = buildRows df rs fs ms := by
  unfold rfmTable at h
  cases h1 : qcut (recencyCol df) [4, 3, 2, 1] with
  | none => rw [h1] at h; cases h
  | some rs =>
    cases h2 : qcut (rankFirst (frequencyCol df)) [1, 2, 3, 4] with
    | none => rw [h1, h2] at h; cases h
    | some fs =>
      cases h3 : qcut (monetaryCol df) [1, 2, 3, 4] with
      | none => rw [h1, h2, h3] at h; cases h
      | some ms =>
        rw [h1, h2, h3] at h
        exact ⟨rs, fs, ms, rfl, rfl, rfl, (Option.some_injective _ h).symm⟩

theorem length_recencyCol (df : List Txn) :
    (recencyCol df).length = (rfmCustomers df).length := List.length_map _ _

theorem length_frequencyCol (df : List Txn) :
    (frequencyCol df).length = (rfmCustomers df).length := List.length_map _ _

theorem length_monetaryCol (df : List Txn) :
    (monetaryCol df).length = (rfmCustomers df).length := List.length_map _ _

theorem length_rankFirst (xs : List ℚ) : (rankFirst xs).length = xs.length := by
  unfold rankFirst
  rw [List.length_mapIdx]

/-- Each row of `buildRows` as an indexed record. -/
theorem mem_buildRows_elim {df : List Txn} {rs fs ms : List Int} {row : RFMRow}
    (h : row ∈ buildRows df rs fs ms) :
    ∃ i, i < (rfmCustomers df).length ∧
      row = { customer_id := (rfmCustomers df).getD i 0
              recency := recencyOf df ((rfmCustomers df).getD i 0)
              frequency := frequencyOf df ((rfmCustomers df).getD i 0)
              monetary := monetaryOf df ((rfmCustomers df).getD i 0)
              r_score := rs.getD i 0
              f_score := fs.getD i 0
              m_score := ms.getD i 0
              rfm_score := rs.getD i 0 + fs.getD i 0 + ms.getD i 0
              segment := segment_customer (rs.getD i 0 + fs.getD i 0 + ms.getD i 0) } := by
  unfold buildRows at h
  obtain ⟨i, hi, hrow⟩ := List.mem_map.mp h
  exact ⟨i, List.mem_range.mp hi, hrow.symm⟩

theorem buildRows_map_customer (df : List Txn) (rs fs ms : List Int) :
    (buildRows df rs fs ms).map (fun r => r.customer_id) = rfmCustomers df := by
  unfold buildRows
  rw [List.map_map]
  exact map_range_getD (rfmCustomers df) 0 _ rfl

theorem buildRows_map_r_score {df : List Txn} {rs : List Int} (fs ms : List Int)
    (hlen : rs.length = (rfmCustomers df).length) :
    (buildRows df rs fs ms).map (fun r => r.r_score) = rs := by
  unfold buildRows
  rw [List.map_map]
  exact map_range_getD rs 0 _ hlen

theorem buildRows_map_f_score {df : List Txn} {fs : List Int} (rs ms : List Int)
    (hlen : fs.length = (rfmCustomers df).length) :
    (buildRows df rs fs ms).map (fun r => r.f_score) = fs := by
  unfold buildRows
  rw [List.map_map]
  exact map_range_getD fs 0 _ hlen

theorem buildRows_map_m_score {df : List Txn} {ms : List Int} (rs fs : List Int)
    (hlen : ms.length = (rfmCustomers df).length) :
    (buildRows df rs fs ms).map (fun r => r.m_score) = ms := by
  unfold buildRows
  rw [List.map_map]
  exact map_range_getD ms 0 _ hlen

/-! ### Concrete inputs used by witnesses and counterexamples -/

/-- Four customers, one purchase each on distinct days with distinct
amounts: all three `qcut`s succeed. -/
def exampleDf : List Txn :=
  [⟨1, 11, .ts 0, 100⟩, ⟨2, 12, .ts 10, 200⟩, ⟨3, 13, .ts 20, 300⟩, ⟨4, 14, .ts 30, 400⟩]

/-- Four customers who all bought on the same day: every recency is
equal, so the recency quartile edges collapse. -/
def collapseDf : List Txn :=
  [⟨1, 11, .ts 5, 100⟩, ⟨2, 12, .ts 5, 200⟩, ⟨3, 13, .ts 5, 300⟩, ⟨4, 14, .ts 5, 400⟩]

/-- A dataframe whose `order_date` column is still unparsed text. -/
def rawDf : List Txn := [⟨1, 11, .raw 3, 50⟩]

/-! ### Claim theorems -/

/-- C2: for every customer profile, the segment label is determined from
the combined RFM score by the fixed thresholds: `≥10` → Champions,
`[8,10)` → Loyal Customers, `[6,8)` → Potential Loyalists, `[4,6)` → At
Risk, `<4` → Lost (`segment_customer` in `rfm_analysis.py`, applied to
`rfm_score` row by row). -/
theorem segment_thresholds_of_profile (df : List Txn) (row : RFMRow)
    (hrow : row ∈ (rfmTable df).getD []) :
    (10 ≤ row.rfm_score → row.segment = "Champions") ∧
    (8 ≤ row.rfm_score ∧ row.rfm_score < 10 → row.segment = "Loyal Customers") ∧
    (6 ≤ row.rfm_score ∧ row.rfm_score < 8 → row.segment = "Potential Loyalists") ∧
    (4 ≤ row.rfm_score ∧ row.rfm_score < 6 → row.segment = "At Risk") ∧
    (row.rfm_score < 4 → row.segment = "Lost") := by
  cases hrt : rfmTable df with
  | none => rw [hrt] at hrow; cases hrow
  | some rows =>
    rw [hrt] at hrow
    simp only [Option.getD_some] at hrow
    obtain ⟨rs, fs, ms, h1, h2, h3, hbuild⟩ := rfmTable_some_elim hrt
    subst hbuild
    obtain ⟨i, hi, hroweq⟩ := mem_buildRows_elim hrow
    subst hroweq
    simp only
    unfold segment_customer
    refine ⟨?_, ?_, ?_, ?_, ?_⟩ <;> intro h <;> split_ifs <;> first | rfl | omega

unseal Rat.add Rat.mul Rat.sub Rat.inv in
theorem segment_thresholds_of_profile_witness :
    (⟨1, 31, 1, 100, 1, 1, 1, 3, "Lost"⟩ : RFMRow) ∈ (rfmTable exampleDf).getD [] ∧
    (⟨1, 31, 1, 100, 1, 1, 1, 3, "Lost"⟩ : RFMRow).segment = "Lost" :=
  ⟨by decide,
   (segment_thresholds_of_profile exampleDf _ (by decide)).2.2.2.2 (by decide)⟩

unseal Rat.add Rat.mul Rat.sub Rat.inv in
/-- C3 (code bug): the spec expects graceful degradation when a metric
has too few distinct values, but `pd.qcut` with an explicit 4-label list
and `duplicates := drop` raises `ValueError` once duplicate edges are
collapsed (label count no longer matches bin count).  On four customers
with identical recency the recency edges collapse to a single value and
the procedure raises instead of returning a profile table. -/
theorem rfm_collapse_raises :
    ((quantileEdges (recencyCol collapseDf)).dedup).length = 1 ∧
    qcut (recencyCol collapseDf) [4, 3, 2, 1] = none ∧
    (rfm_segmentation_analysis collapseDf).1 = none := by decide

/-- C4: when the procedure returns a table, it has exactly one profile
row per distinct customer identifier of the input — the row identifiers
are exactly the distinct input customer ids, without drops or
duplicates — and every row carries exactly one segment label, the one
determined by its combined score. -/
theorem rfm_one_profile_per_customer (df : List Txn)
    (h : (rfmTable df).isSome) :
    ((rfmTable df).getD []).map (fun r => r.customer_id) = rfmCustomers df ∧
    (((rfmTable df).getD []).map (fun r => r.customer_id)).Nodup ∧
    (∀ c, c ∈ ((rfmTable df).getD []).map (fun r => r.customer_id) ↔
      c ∈ df.map (fun t => t.customer_id)) ∧
    ∀ row ∈ (rfmTable df).getD [], row.segment = segment_customer row.rfm_score := by
  obtain ⟨rows, hrows⟩ := Option.isSome_iff_exists.mp h
  obtain ⟨rs, fs, ms, h1, h2, h3, hbuild⟩ := rfmTable_some_elim hrows
  subst hbuild
  simp only [hrows, Option.getD_some]
  refine ⟨buildRows_map_customer df rs fs ms, ?_, ?_, ?_⟩
  · rw [buildRows_map_customer]
    exact nodup_rfmCustomers df
  · intro c
    rw [buildRows_map_customer]
    exact mem_rfmCustomers
  · intro row hrow
    obtain ⟨i, hi, hroweq⟩ := mem_buildRows_elim hrow
    subst hroweq
    rfl

unseal Rat.add Rat.mul Rat.sub Rat.inv in
theorem rfm_one_profile_per_customer_witness :
    (rfmTable exampleDf).isSome = true ∧
    ((rfmTable exampleDf).getD []).map (fun r => r.customer_id) = rfmCustomers exampleDf :=
  ⟨by decide, (rfm_one_profile_per_customer exampleDf (by decide)).1⟩

/-- C5: for every non-empty input, the reference date is the maximum
timestamp over all records plus one day (both as the defining equation
and as the characterisation: it exceeds every record's date by at least
one day and equals some record's date plus one); and each profile row
carries recency = reference date minus the customer's latest date (hence
≥ 0), frequency = that customer's record count (hence ≥ 1), and
monetary = the sum of that customer's amounts. -/
theorem rfm_metric_formulas (df : List Txn) (h : df ≠ []) :
    referenceDate df = listMax (df.map (fun t => t.order_date.val)) + 1 ∧
    (∃ t ∈ df, referenceDate df = t.order_date.val + 1) ∧
    (∀ t ∈ df, t.order_date.val + 1 ≤ referenceDate df) ∧
    ∀ row ∈ (rfmTable df).getD [],
      row.recency = referenceDate df
          - listMax ((custTxns df row.customer_id).map (fun t => t.order_date.val)) ∧
      row.frequency = (custTxns df row.customer_id).length ∧
      row.monetary = ((custTxns df row.customer_id).map (fun t => t.final_amount_inr)).sum ∧
      0 ≤ row.recency ∧ 1 ≤ row.frequency := by
  have hne : df.map (fun t => t.order_date.val) ≠ [] := by
    simpa using h
  refine ⟨rfl, ?_, ?_, ?_⟩
  · obtain ⟨t, ht, hte⟩ := List.mem_map.mp (listMax_mem hne)
    exact ⟨t, ht, by unfold referenceDate; rw [← hte]⟩
  · intro t ht
    have hmem : t.order_date.val ∈ df.map (fun u => u.order_date.val) :=
      List.mem_map.mpr ⟨t, ht, rfl⟩
    have := le_listMax hmem
    unfold referenceDate
    omega
  · cases hrt : rfmTable df with
    | none => intro row hrow; simp at hrow
    | some rows =>
      intro row hrow
      simp only [Option.getD_some] at hrow
      obtain ⟨rs, fs, ms, h1, h2, h3, hbuild⟩ := rfmTable_some_elim hrt
      subst hbuild
      obtain ⟨i, hi, hroweq⟩ := mem_buildRows_elim hrow
      subst hroweq
      have hc : (rfmCustomers df).getD i 0 ∈ rfmCustomers df := by
        rw [List.getD_eq_getElem _ _ hi]
        exact List.getElem_mem hi
      refine ⟨rfl, rfl, rfl, ?_, frequencyOf_pos hc⟩
      have := recencyOf_pos hc
      dsimp only
      omega

unseal Rat.add Rat.mul Rat.sub Rat.inv in
theorem rfm_metric_formulas_witness :
    exampleDf ≠ [] ∧ referenceDate exampleDf = 31 ∧
    (∀ t ∈ exampleDf, t.order_date.val + 1 ≤ referenceDate exampleDf) :=
  ⟨by decide, by decide, (rfm_metric_formulas exampleDf (by decide)).2.2.1⟩

theorem mem_label_bounds {y : Int}
    (h : y ∈ ([4, 3, 2, 1] : List Int) ∨ y ∈ ([1, 2, 3, 4] : List Int)) :
    1 ≤ y ∧ y ≤ 4 := by
  rcases h with h | h <;> simp at h <;> rcases h with rfl | rfl | rfl | rfl <;> omega

/-- C6: every profile's combined score is the sum of its three quartile
scores, lies in `[3, 12]`, and the segment label is the pure function
`segment_customer` of that combined score alone. -/
theorem rfm_combined_score_bounds (df : List Txn)
    (h : (rfmTable df).isSome) :
    ∀ row ∈ (rfmTable df).getD [],
      row.rfm_score = row.r_score + row.f_score + row.m_score ∧
      3 ≤ row.rfm_score ∧ row.rfm_score ≤ 12 ∧
      row.segment = segment_customer row.rfm_score := by
  obtain ⟨rows, hrows⟩ := Option.isSome_iff_exists.mp h
  obtain ⟨rs, fs, ms, h1, h2, h3, hbuild⟩ := rfmTable_some_elim hrows
  subst hbuild
  simp only [hrows, Option.getD_some]
  intro row hrow
  obtain ⟨i, hi, hroweq⟩ := mem_buildRows_elim hrow
  subst hroweq
  have hir : i < rs.length := by
    rw [(qcut_out_mem h1 rfl).1, length_recencyCol]
    exact hi
  have hif : i < fs.length := by
    rw [(qcut_out_mem h2 rfl).1, length_rankFirst, length_frequencyCol]
    exact hi
  have him : i < ms.length := by
    rw [(qcut_out_mem h3 rfl).1, length_monetaryCol]
    exact hi
  have hrlab : rs.getD i 0 ∈ ([4, 3, 2, 1] : List Int) := by
    refine (qcut_out_mem h1 rfl).2 _ ?_
    rw [List.getD_eq_getElem _ _ hir]
    exact List.getElem_mem hir
  have hflab : fs.getD i 0 ∈ ([1, 2, 3, 4] : List Int) := by
    refine (qcut_out_mem h2 rfl).2 _ ?_
    rw [List.getD_eq_getElem _ _ hif]
    exact List.getElem_mem hif
  have hmlab : ms.getD i 0 ∈ ([1, 2, 3, 4] : List Int) := by
    refine (qcut_out_mem h3 rfl).2 _ ?_
    rw [List.getD_eq_getElem _ _ him]
    exact List.getElem_mem him
  obtain ⟨hr1, hr4⟩ := mem_label_bounds (Or.inl hrlab)
  obtain ⟨hf1, hf4⟩ := mem_label_bounds (Or.inr hflab)
  obtain ⟨hm1, hm4⟩ := mem_label_bounds (Or.inr hmlab)
  refine ⟨rfl, ?_, ?_, rfl⟩ <;> dsimp only <;> omega

unseal Rat.add Rat.mul Rat.sub Rat.inv in
theorem rfm_combined_score_bounds_witness :
    (rfmTable exampleDf).isSome = true ∧
    ∀ row ∈ (rfmTable exampleDf).getD [],
      row.rfm_score = row.r_score + row.f_score + row.m_score ∧
      3 ≤ row.rfm_score ∧ row.rfm_score ≤ 12 ∧
      row.segment = segment_customer row.rfm_score :=
  ⟨by decide, rfm_combined_score_bounds exampleDf (by decide)⟩

/-- C1: the three quartile scores are assigned as the spec's step 3
prescribes, each over the whole customer population: `r_score` is the
ascending quartile rank of recency inverted (`5 - rank`, so the
lowest-recency quartile scores 4), `f_score` is the ascending quartile
rank of the stable row-order tie-break ranking of frequency (not the raw
value), and `m_score` is the ascending quartile rank of monetary. -/
theorem rfm_quartile_score_assignment (df : List Txn)
    (h : (rfmTable df).isSome) :
    ∃ asc, qcut (recencyCol df) [1, 2, 3, 4] = some asc ∧
      ((rfmTable df).getD []).map (fun r => r.r_score) = asc.map (fun a => 5 - a) ∧
      ((rfmTable df).getD []).map (fun r => r.f_score)
        = (qcut (rankFirst (frequencyCol df)) [1, 2, 3, 4]).getD [] ∧
      ((rfmTable df).getD []).map (fun r => r.m_score)
        = (qcut (monetaryCol df) [1, 2, 3, 4]).getD [] := by
  obtain ⟨rows, hrows⟩ := Option.isSome_iff_exists.mp h
  obtain ⟨rs, fs, ms, h1, h2, h3, hbuild⟩ := rfmTable_some_elim hrows
  subst hbuild
  simp only [hrows, Option.getD_some]
  have hlenr : rs.length = (rfmCustomers df).length := by
    rw [(qcut_out_mem h1 rfl).1, length_recencyCol]
  have hlenf : fs.length = (rfmCustomers df).length := by
    rw [(qcut_out_mem h2 rfl).1, length_rankFirst, length_frequencyCol]
  have hlenm : ms.length = (rfmCustomers df).length := by
    rw [(qcut_out_mem h3 rfl).1, length_monetaryCol]
  refine ⟨rs.map (fun y => 5 - y), qcut_labels_inverted h1, ?_, ?_, ?_⟩
  · rw [buildRows_map_r_score fs ms hlenr, List.map_map]
    have : ∀ y ∈ rs, ((fun a => 5 - a) ∘ fun y => 5 - y) y = id y := by
      intro y _
      simp only [Function.comp_apply, id_eq]
      omega
    rw [List.map_congr_left this, List.map_id]
  · rw [buildRows_map_f_score rs ms hlenf, h2]
    rfl
  · rw [buildRows_map_m_score rs fs hlenm, h3]
    rfl

unseal Rat.add Rat.mul Rat.sub Rat.inv in
theorem rfm_quartile_score_assignment_witness :
    (rfmTable exampleDf).isSome = true ∧
    ∃ asc, qcut (recencyCol exampleDf) [1, 2, 3, 4] = some asc ∧
      ((rfmTable exampleDf).getD []).map (fun r => r.r_score)
        = asc.map (fun a => 5 - a) ∧
      ((rfmTable exampleDf).getD []).map (fun r => r.f_score)
        = (qcut (rankFirst (frequencyCol exampleDf)) [1, 2, 3, 4]).getD [] ∧
      ((rfmTable exampleDf).getD []).map (fun r => r.m_score)
        = (qcut (monetaryCol exampleDf) [1, 2, 3, 4]).getD [] :=
  ⟨by decide, rfm_quartile_score_assignment exampleDf (by decide)⟩

/-! ### Frame effect and idempotence -/

theorem to_datetime_idem (d : DateCell) :
    to_datetime (to_datetime d) = to_datetime d := by
  cases d <;> rfl

theorem to_datetime_val (d : DateCell) : (to_datetime d).val = d.val := by
  cases d <;> rfl

theorem convertDates_idem (df : List Txn) :
    convertDates (convertDates df) = convertDates df := by
  unfold convertDates
  rw [List.map_map]
  apply List.map_congr_left
  intro t _
  simp [to_datetime_idem]

theorem referenceDate_convertDates (df : List Txn) :
    referenceDate (convertDates df) = referenceDate df := by
  unfold referenceDate convertDates
  rw [List.map_map]
  have hval : ∀ t ∈ df,
      ((fun t : Txn => t.order_date.val)
        ∘ fun t : Txn => { t with order_date := to_datetime t.order_date }) t
        = t.order_date.val :=
    fun t _ => to_datetime_val t.order_date
  rw [List.map_congr_left hval]

/-- C7: running the procedure twice yields identical output.  The second
run receives the dataframe as the first call left it (the in-place date
conversion included) and produces the same profile table, the same
left-behind dataframe, and the same reference date; the computation has
no other state, so a rerun on an equal input is the same term. -/
theorem rfm_idempotent (df : List Txn) :
    rfm_segmentation_analysis ((rfm_segmentation_analysis df).2)
      = rfm_segmentation_analysis df ∧
    referenceDate ((rfm_segmentation_analysis df).2) = referenceDate df := by
  unfold rfm_segmentation_analysis
  constructor
  · simp only
    rw [convertDates_idem]
  · exact referenceDate_convertDates df

/-- C8 counterexample: the claim says the caller's transaction data is
left unchanged, but when `order_date` arrives unparsed (the dtype a CSV
load yields) the call rewrites that column in place, so the caller's
dataframe differs after the call. -/
theorem rfm_mutates_caller_frame :
    (rfm_segmentation_analysis rawDf).2 ≠ rawDf := by decide

/-- C8 amended: the only caller-visible effect besides the returned table
is the in-place `to_datetime` conversion of the `order_date` column.  Row
count, all other columns, and the denoted dates are unchanged, and a
dataframe whose dates are already parsed is left fully unchanged. -/
theorem rfm_frame_effect (df : List Txn) :
    (rfm_segmentation_analysis df).2 = convertDates df ∧
    ((rfm_segmentation_analysis df).2).length = df.length ∧
    List.Forall₂ (fun t t₂ => t₂.customer_id = t.customer_id ∧
        t₂.transaction_id = t.transaction_id ∧
        t₂.final_amount_inr = t.final_amount_inr ∧
        t₂.order_date.val = t.order_date.val ∧
        t₂.order_date = to_datetime t.order_date)
      df ((rfm_segmentation_analysis df).2) ∧
    ((∀ t ∈ df, to_datetime t.order_date = t.order_date) →
      (rfm_segmentation_analysis df).2 = df) := by
  refine ⟨rfl, by simp [rfm_segmentation_analysis, convertDates], ?_, ?_⟩
  · show List.Forall₂ _ df (convertDates df)
    unfold convertDates
    rw [List.forall₂_map_right_iff]
    rw [List.forall₂_same]
    intro t _
    exact ⟨rfl, rfl, rfl, to_datetime_val t.order_date, rfl⟩
  · intro hts
    show convertDates df = df
    unfold convertDates
    have hid : ∀ t ∈ df, { t with order_date := to_datetime t.order_date } = t := by
      intro t ht
      rw [hts t ht]
    rw [List.map_congr_left hid, List.map_id']

theorem rfm_frame_effect_witness :
    (rfm_segmentation_analysis [⟨1, 11, DateCell.ts 3, 50⟩]).2
      = [⟨1, 11, DateCell.ts 3, 50⟩] :=
  (rfm_frame_effect [⟨1, 11, DateCell.ts 3, 50⟩]).2.2.2 (by decide)

/-! ### DatabaseManager error conversion (`db_analytics.py`) -/

namespace DbAnalytics

/-- A value a `DatabaseManager` method hands back to its Python caller:
the `None` object, an integer, or a result dataframe (identified by its
row count for this model). -/
inductive PyVal where
  | none
  | int (n : Int)
  | frame (rows : Nat)
deriving DecidableEq, Repr

/-- An exception class in flight: `mysqlError` is a
`mysql.connector.Error` (what the `except Error` clauses catch);
`pandasDatabaseError` is a `pandas.errors.DatabaseError` (an `OSError`
subclass, which those clauses do not catch). -/
inductive PyExc where
  | mysqlError (msg : String)
  | pandasDatabaseError (msg : String)
deriving DecidableEq, Repr

deriving instance DecidableEq for Except

/-- The environment of one call: whether the pool currently hands out a
connection, how the driver answers `cursor.execute` for a read query and
for an update statement (`Except.error` is a raised
`mysql.connector.Error`), and whether `connection.rollback()` still
succeeds afterwards (`false` models a dead connection, where rollback
itself raises). -/
structure DbWorld where
  connAvail : Bool
  driverQuery : Except String Nat
  driverUpdate : Except String Int
  rollbackOk : Bool
deriving DecidableEq, Repr

/-- `pd.read_sql` on a raw DBAPI connection: pandas runs
`cursor.execute` itself and wraps any exception it raises in
`pandas.errors.DatabaseError`, so a driver failure surfaces as a pandas
exception, not as a `mysql.connector.Error`. -/
def pd_read_sql (outcome : Except String Nat) : Except PyExc Nat :=
  match outcome with
  | .ok n => .ok n
  | .error msg => .error (.pandasDatabaseError msg)

/-- `DatabaseManager.get_connection`: the `try` around
`connection_pool.get_connection()` logs a driver error and returns
`None`; a successful call returns the connection.  The result is wrapped
in `Except` so that an uncaught exception would be visible as `.error`. -/
def get_connection (w : DbWorld) : Except PyExc (Option Unit) :=
  .ok (if w.connAvail then some () else Option.none)

/-- `DatabaseManager.execute_query`: returns `None` when no connection is
available; otherwise runs `pd.read_sql` under `except Error`.  That
clause would convert a `mysql.connector.Error` to `None`, but
`pd_read_sql` wraps driver failures in `pandas.errors.DatabaseError`,
which it cannot catch — so a failing query raises out of the method and
the `except` branch is dead code. -/
def execute_query (w : DbWorld) : Except PyExc PyVal :=
  match get_connection w with
  | .ok Option.none => .ok .none
  | .ok (some _) =>
      match pd_read_sql w.driverQuery with
      | .ok n => .ok (.frame n)
      | .error (.mysqlError _) => .ok .none
      | .error (.pandasDatabaseError m) => .error (.pandasDatabaseError m)
  | .error e => .error e

/-- `DatabaseManager.execute_update`: returns `0` when no connection is
available and the affected row count on success.  A driver error is
caught by `except Error`, which first calls `connection.rollback()`: if
the rollback succeeds the method returns `0`, but on a dead connection
the rollback itself raises inside the handler and that exception
escapes. -/
def execute_update (w : DbWorld) : Except PyExc PyVal :=
  match get_connection w with
  | .ok Option.none => .ok (.int 0)
  | .ok (some _) =>
      match w.driverUpdate with
      | .ok n => .ok (.int n)
      | .error _ =>
          if w.rollbackOk then .ok (.int 0)
          else .error (.mysqlError "MySQL Connection not available")
  | .error e => .error e

/-- C9 counterexample: a driver failure while executing a read query is
wrapped by pandas in a `DatabaseError` that `except Error` cannot catch,
so `execute_query` raises instead of returning `None`; and with the pool
down `execute_update` returns the integer `0`, not `None`.  Both refute
the claim that every connectivity failure is converted to a `None`
return instead of raising. -/
theorem db_failure_raises_or_zero :
    execute_query ⟨true, Except.error "connection lost", Except.ok 0, true⟩
        = Except.error (PyExc.pandasDatabaseError "connection lost") ∧
    execute_query ⟨true, Except.error "connection lost", Except.ok 0, true⟩
        ≠ Except.ok PyVal.none ∧
    execute_update ⟨false, Except.ok 0, Except.ok 0, true⟩
        = Except.ok (PyVal.int 0) ∧
    execute_update ⟨false, Except.ok 0, Except.ok 0, true⟩
        ≠ Except.ok PyVal.none ∧
    execute_update ⟨true, Except.ok 0, Except.error "lock timeout", false⟩
        = Except.error (PyExc.mysqlError "MySQL Connection not available") := by
  refine ⟨rfl, by decide, rfl, by decide, rfl⟩

/-- C9 amended: only the connection-acquisition failure is converted to
a sentinel — `get_connection` returns `None` when the pool fails, and
with no connection `execute_query` returns `None` and `execute_update`
returns `0`.  With a connection, a driver failure during query execution
raises a `pandas.errors.DatabaseError` out of `execute_query` (the
`except Error` clause cannot catch the pandas wrapper); a driver failure
during an update is converted to a `0` return only when the rollback
succeeds, and raises out of `execute_update` when the connection is dead
and the rollback itself fails. -/
theorem db_error_paths (w : DbWorld) :
    (get_connection w).isOk = true ∧
    (w.connAvail = false →
      get_connection w = .ok Option.none ∧
      execute_query w = .ok PyVal.none ∧
      execute_update w = .ok (PyVal.int 0)) ∧
    (∀ n, w.connAvail = true → w.driverQuery = .ok n →
      execute_query w = .ok (.frame n)) ∧
    (∀ m, w.connAvail = true → w.driverQuery = .error m →
      execute_query w = .error (.pandasDatabaseError m)) ∧
    (∀ n, w.connAvail = true → w.driverUpdate = .ok n →
      execute_update w = .ok (.int n)) ∧
    (∀ m, w.connAvail = true → w.driverUpdate = .error m → w.rollbackOk = true →
      execute_update w = .ok (PyVal.int 0)) ∧
    (∀ m, w.connAvail = true → w.driverUpdate = .error m → w.rollbackOk = false →
      (execute_update w).isOk = false) := by
  obtain ⟨ca, dq, du, rb⟩ := w
  cases ca <;> cases dq <;> cases du <;> cases rb <;>
    simp [get_connection, execute_query, execute_update, pd_read_sql,
      Except.isOk, Except.toBool]

theorem db_error_paths_witness :
    (get_connection ⟨false, Except.error "no route", Except.error "no route", true⟩
        = Except.ok Option.none ∧
      execute_query ⟨false, Except.error "no route", Except.error "no route", true⟩
        = Except.ok PyVal.none ∧
      execute_update ⟨false, Except.error "no route", Except.error "no route", true⟩
        = Except.ok (PyVal.int 0)) ∧
    execute_query ⟨true, Except.error "srv gone", Except.ok 1, true⟩
        = Except.error (PyExc.pandasDatabaseError "srv gone") ∧
    (execute_update ⟨true, Except.ok 0, Except.error "deadlock", false⟩).isOk = false :=
  ⟨(db_error_paths ⟨false, Except.error "no route", Except.error "no route", true⟩).2.1 rfl,
   (db_error_paths ⟨true, Except.error "srv gone", Except.ok 1, true⟩).2.2.2.1 "srv gone" rfl rfl,
   (db_error_paths ⟨true, Except.ok 0, Except.error "deadlock", false⟩).2.2.2.2.2.2
     "deadlock" rfl rfl rfl⟩

end DbAnalytics

/-! ### The `eda_q3` page of `app_main.py` (C10) -/

/-- `np.clip(x, lo, hi)` on one integer. -/
def clip (lo hi x : Int) : Int := max lo (min x hi)

/-- The six quintile edges of `pd.qcut(xs, 5)`. -/
def quintileEdges (xs : List ℚ) : List ℚ :=
  [quantileAt (List.insertionSort (· ≤ ·) xs) 0 5,
   quantileAt (List.insertionSort (· ≤ ·) xs) 1 5,
   quantileAt (List.insertionSort (· ≤ ·) xs) 2 5,
   quantileAt (List.insertionSort (· ≤ ·) xs) 3 5,
   quantileAt (List.insertionSort (· ≤ ·) xs) 4 5,
   quantileAt (List.insertionSort (· ≤ ·) xs) 5 5]

/-- `pd.qcut(xs, q := 5, labels, duplicates := drop)`, as `qcut` but with
quintile edges. -/
def qcut5 (xs : List ℚ) (labels : List Int) : Option (List Int) :=
  let edges := (quintileEdges xs).dedup
  if labels.length = edges.length - 1 then
    some (xs.map (fun v => labels.getD (qcutBin edges v) 0))
  else none

/-- The nested `segment_customer(r, f, m)` of `eda_q3`. -/
def segment_customer_q3 (r f m : Int) : String :=
  if r ≥ 4 ∧ f ≥ 4 ∧ m ≥ 4 then "VIP (Champions)"
  else if r ≥ 3 ∧ f ≥ 3 ∧ m ≥ 3 then "Loyal (Loyal Customers)"
  else if r ≥ 2 ∧ f ≥ 2 ∧ m ≥ 2 then "Potential (Potential)"
  else if r ≥ 2 ∧ (f ≥ 2 ∨ m ≥ 2) then "At-Risk (At Risk)"
  else "Lost (Lost Customers)"

/-- One row of the synthetic RFM frame `eda_q3` builds. -/
structure EdaRow where
  customer_index : Nat
  recency : Int
  frequency : Int
  monetary : Int
  r_score : Int
  f_score : Int
  m_score : Int
  rfm_score : Int
  segment : String
deriving DecidableEq, Repr

/-- The `eda_q3` page of `app_main.py`.  `draw` models numpy's seeded
generators: after `np.random.seed(42)` the three `.astype(int)` draw
arrays (exponential recency, exponential frequency, lognormal monetary)
are a pure function of the seed alone, here applied to the literal seed
42 exactly as in the source.  `df` is the transaction dataset the app has
loaded; as in the source, the page never reads it.  The body then clips
the draws, assigns 1–5 quintile scores (`R_Score` on raw recency with
labels 5..1, `F_Score` and `M_Score` on rank-first ranks with labels
1..5), sums them, and labels each row via the nested `segment_customer`
rule. -/
def eda_q3 (draw : Nat → List Int × List Int × List Int)
    (_df : List Txn) : Option (List EdaRow) :=
  let recency := (draw 42).1.map (clip 0 365)
  let frequency := (draw 42).2.1.map (clip 1 100)
  let monetary := (draw 42).2.2.map (clip 1000 200000)
  match qcut5 (recency.map (fun x => (x : ℚ))) [5, 4, 3, 2, 1],
        qcut5 (rankFirst (frequency.map (fun x => (x : ℚ)))) [1, 2, 3, 4, 5],
        qcut5 (rankFirst (monetary.map (fun x => (x : ℚ)))) [1, 2, 3, 4, 5] with
  | some rs, some fs, some ms =>
      some ((List.range recency.length).map (fun i =>
        { customer_index := i
          recency := recency.getD i 0
          frequency := frequency.getD i 0
          monetary := monetary.getD i 0
          r_score := rs.getD i 0
          f_score := fs.getD i 0
          m_score := ms.getD i 0
          rfm_score := rs.getD i 0 + fs.getD i 0 + ms.getD i 0
          segment := segment_customer_q3 (rs.getD i 0) (fs.getD i 0) (ms.getD i 0) }))
  | _, _, _ => Option.none

/-- C10: whatever the seeded generator yields, the `eda_q3` page computes
the identical RFM scores, segments and statistics for any two loaded
transaction datasets — its output never depends on the input dataset. -/
theorem eda_q3_input_independent (draw : Nat → List Int × List Int × List Int)
    (df₁ df₂ : List Txn) : eda_q3 draw df₁ = eda_q3 draw df₂ := rfl

end AmazonAnalytics
